import Mathlib

/-
Verification of the charm metadata core: the generic-tree canonicalizer
(`cleanse`), the nested-path accessor (`recurseMapOnKeys`), the action schema
builder (`ReadActionsYaml`), the action parameter validator
(`ActionSpec.ValidateParams`), and the resource descriptor parser/validator
(`ParseMeta`, `Meta.Validate`).

The decoded YAML/JSON tree (Go `interface{}`) is embedded as the inductive
type `Val`.  Go's `map[string]interface{}` is embedded as an association list
`List (String × Val)` (constructor `Val.mapS`), and `map[interface{}]interface{}`
as `List (Val × Val)` (constructor `Val.mapI`).  Go map reads/writes are
embedded as first-match association-list lookup (`alGet`) and in-place update
(`alSet`).  Go's `(value, ok)` map read is `(alGet m k, (alGet m k).isSome)`.
A Go function that returns `(T, error)` is embedded as `Except String T`,
carrying the error message text.

The external schema-validation engine (gojsonschema) is not part of this
repository; per the specification it is an external collaborator consumed via
a narrow contract.  It enters the embedding as an explicit function argument
(`schemaCheck` in `ReadActionsYaml`, `validator` in `ValidateParams`), so all
theorems about the glue code hold for every behavior of the engine.
-/

set_option autoImplicit false
set_option maxHeartbeats 1000000

/-- A node of a decoded configuration tree (Go `interface{}` as produced by
the YAML decoder): string, number, boolean, null, sequence, string-keyed
mapping, or arbitrarily-keyed mapping. -/
inductive Val where
  | str (s : String)
  | num (n : Int)
  | bool (b : Bool)
  | null
  | seq (xs : List Val)
  | mapS (m : List (String × Val))
  | mapI (m : List (Val × Val))

/-- First-match lookup in an association list: Go `m[key]` read (the value
part; presence is `(alGet m key).isSome`). -/
def alGet {α : Type} : List (String × α) → String → Option α
  | [], _ => none
  | (k, v) :: m, key => if k = key then some v else alGet m key

/-- In-place update of an association list: Go `m[key] = value`.  Replaces the
first binding of `key`, appends when absent. -/
def alSet {α : Type} : List (String × α) → String → α → List (String × α)
  | [], key, value => [(key, value)]
  | (k, v) :: m, key, value =>
    if k = key then (key, value) :: m else (k, v) :: alSet m key value

/- Size measure on `Val`, used as the termination measure of `cleanse`.
The `mapI` tag is weighted so that coercing its keys to strings strictly
shrinks the tree. -/
mutual
def vsize : Val → Nat
  | .str _ => 1
  | .num _ => 1
  | .bool _ => 1
  | .null => 1
  | .seq xs => 1 + vsizeL xs
  | .mapS m => 1 + vsizeS m
  | .mapI m => 2 + vsizeI m

def vsizeL : List Val → Nat
  | [] => 0
  | v :: vs => vsize v + 1 + vsizeL vs

def vsizeS : List (String × Val) → Nat
  | [] => 0
  | (_, v) :: m => vsize v + 1 + vsizeS m

def vsizeI : List (Val × Val) → Nat
  | [] => 0
  | (k, v) :: m => vsize k + vsize v + 1 + vsizeI m
end

/-- The denylist of reserved schema keys (source: `prohibitedSchemaKeys`). -/
def prohibitedSchemaKeys : List String := ["$ref", "$schema"]

/-- The key-coercion pass of `cleanse`'s `map[interface{}]interface{}` case:
every key must be a string; the values are carried over unchanged. -/
def coerceEntries : List (Val × Val) → Except String (List (String × Val))
  | [] => .ok []
  | (k, v) :: m =>
    match k with
    | .str s => (coerceEntries m).map (fun m2 => (s, v) :: m2)
    | _ => .error "map keyed with non-string value"

theorem vsize_pos (v : Val) : 1 ≤ vsize v := by
  cases v <;> simp [vsize] <;> omega

theorem coerceEntries_vsize (m : List (Val × Val)) (m2 : List (String × Val))
    (h : coerceEntries m = .ok m2) : vsizeS m2 ≤ vsizeI m := by
  induction m generalizing m2 with
  | nil =>
    simp [coerceEntries] at h
    subst h
    simp [vsizeS, vsizeI]
  | cons kv rest ih =>
    obtain ⟨k, v⟩ := kv
    cases k <;> simp [coerceEntries, Except.map] at h
    case str s =>
      cases hrec : coerceEntries rest with
      | error e =>
        rw [hrec] at h
        simp [Except.map] at h
      | ok r2 =>
        rw [hrec] at h
        simp [Except.map] at h
        subst h
        have := ih r2 hrec
        have := vsize_pos (Val.str s)
        simp [vsizeS, vsizeI, vsize]
        omega

theorem cleanse_mapI_dec (m : List (Val × Val)) (m2 : List (String × Val))
    (h : coerceEntries m = .ok m2) : vsize (.mapS m2) < vsize (.mapI m) := by
  have := coerceEntries_vsize m m2 h
  simp [vsize]
  omega

/- Embeds `cleanse` (source part_000 lines 156-204): rejects trees holding a
reserved schema key or a non-string map key and rebuilds every
`map[interface{}]interface{}` level as a string-keyed map.  The three Go
switch cases become the three mutual functions: `cleanseS` is the body of the
`map[string]interface{}` loop, `cleanseL` the body of the `[]interface{}`
loop (note: on a failing element the source discards the recursive error and
returns a fresh "map keyed with non-string value" error), and the
`map[interface{}]interface{}` case coerces keys (`coerceEntries`) and then
re-enters `cleanse` on the resulting string-keyed map. -/
mutual
def cleanse : Val → Except String Val
  | .mapS m => (cleanseS m).map .mapS
  | .mapI m =>
    match h : coerceEntries m with
    | .error e => .error e
    | .ok m2 => cleanse (.mapS m2)
  | .seq xs => (cleanseL xs).map .seq
  | v => .ok v
termination_by v => vsize v
decreasing_by
  all_goals first
  | (simp [vsize, vsizeS, vsizeL] <;> omega)
  | (exact cleanse_mapI_dec _ _ (by assumption))

def cleanseS : List (String × Val) → Except String (List (String × Val))
  | [] => .ok []
  | (key, value) :: m =>
    if prohibitedSchemaKeys.contains key then
      .error ("schema key \"" ++ key ++ "\" not compatible with this version of juju")
    else
      match cleanse value with
      | .error e => .error e
      | .ok newValue => (cleanseS m).map (fun m2 => (key, newValue) :: m2)
termination_by m => vsizeS m
decreasing_by
  all_goals (simp [vsize, vsizeS] <;> omega)

def cleanseL : List Val → Except String (List Val)
  | [] => .ok []
  | v :: vs =>
    match cleanse v with
    | .error _ => .error "map keyed with non-string value"
    | .ok v2 => (cleanseL vs).map (fun vs2 => v2 :: vs2)
termination_by xs => vsizeL xs
decreasing_by
  all_goals (simp [vsize, vsizeL] <;> omega)
end

/- A tree all of whose mappings, at every depth, are string-keyed
(`Val.mapS`) and contain no reserved schema key.  `goodL` and `goodS` are the
pointwise conditions on sequence elements and map entries. -/
mutual
def goodVal : Val → Bool
  | .mapS m => goodS m
  | .mapI _ => false
  | .seq xs => goodL xs
  | _ => true

def goodL : List Val → Bool
  | [] => true
  | v :: vs => goodVal v && goodL vs

def goodS : List (String × Val) → Bool
  | [] => true
  | (k, v) :: m => !(prohibitedSchemaKeys.contains k) && goodVal v && goodS m
end

/-- Embeds `recurseMapOnKeys` (source part_000 lines 209-248): follows the
ordered path `keys` through nested string-keyed mappings.  The Go function
indexes `keys[0]` unconditionally, so an empty path is a caller error (the
spec makes non-emptiness a precondition); the `[]` equation below is
unreachable under that precondition and returns the all-absent answer.  A Go
`nil` answer is `none`; a stored explicit null is `some .null`.  The
`map[interface{}]interface{}` case coerces keys exactly as the source's
inline loop does, collapsing any non-string key to `(nil, false)`. -/
def recurseMapOnKeys : List String → List (String × Val) → Option Val × Bool
  | [], _ => (none, false)
  | key :: rest, params =>
    let answer := alGet params key
    if rest.isEmpty then (answer, answer.isSome)
    else
      match answer with
      | none => (none, false)
      | some (.mapS typed) => recurseMapOnKeys rest typed
      | some (.mapI typed) =>
        match coerceEntries typed with
        | .ok m => recurseMapOnKeys rest m
        | .error _ => (none, false)
      | some _ => (none, false)

/-- Embeds `ActionSpec` (source part_000 lines 31-34): the description and the
JSON-Schema params document of one action. -/
structure ActionSpec where
  Description : String
  Params : List (String × Val)

/-- The observable part of a gojsonschema validation result: `Valid()` and the
ordered list of individual error descriptions (`Errors()`, each rendered by
its `String()` method). -/
structure ValidationResult where
  valid : Bool
  errors : List String

/-- Embeds `ActionSpec.ValidateParams` (source part_000 lines 43-60).  The
external engine enters as `validator`: applied to `spec.Params` it either
fails to build a schema document (`.error`) or yields the compiled document as
a function from the instance to a `ValidationResult`.  The glue returns
`(true, nil)` on a valid result and otherwise joins every individual error
string with `"; "` under the fixed prefix. -/
def ActionSpec.ValidateParams
    (validator : List (String × Val) → Except String (Val → ValidationResult))
    (spec : ActionSpec) (params : Val) : Bool × Option String :=
  match validator spec.Params with
  | .error err => (false, some err)
  | .ok specSchemaDoc =>
    let results := specSchemaDoc params
    if results.valid then (true, none)
    else
      (false, some ("JSON validation failed: " ++ String.intercalate "; " results.errors))

/-- Lowercase ASCII letter. -/
def isLowerAZ (c : Char) : Bool := 'a' ≤ c && c ≤ 'z'

/-- Matcher for the regular expression fragment `[a-z-]*[a-z]` (a non-empty
run of lowercase letters and hyphens ending in a lowercase letter). -/
def actionNameTail : List Char → Bool
  | [] => false
  | [c] => isLowerAZ c
  | c :: rest => (isLowerAZ c || c = '-') && actionNameTail rest

/-- Embeds the anchored regular expression `^[a-z](?:[a-z-]*[a-z])?$`
(source: `actionNameRule`, part_000 line 20), by cases on the optional
group. -/
def actionNameChars : List Char → Bool
  | [] => false
  | [c] => isLowerAZ c
  | c :: rest => isLowerAZ c && actionNameTail rest

/-- `actionNameRule.MatchString` on a Lean string. -/
def actionNameRule (s : String) : Bool := actionNameChars s.toList

/-- The schema scaffold built for the action `name` before its keys are
processed (source part_000 lines 83-89). -/
def initActionSchema (name : String) : List (String × Val) :=
  [("description", .str "No description"),
   ("type", .str "object"),
   ("title", .str name),
   ("properties", .mapS [])]

/-- Embeds one iteration of the per-key switch of `ReadActionsYaml` (source
part_000 lines 91-136) on the running scaffold `schema` and recorded
description `desc`.  Go's `switch key` over string literals is the if-chain
below. -/
def processEntry (schema : List (String × Val)) (desc : String)
    (key : String) (value : Val) : Except String (List (String × Val) × String) :=
  if key = "description" then
    match value with
    | .str typed => .ok (alSet schema key (.str typed), typed)
    | _ => .error ("value for schema key \"" ++ key ++ "\" must be a string")
  else if key = "title" then
    match value with
    | .str typed => .ok (alSet schema key (.str typed), desc)
    | _ => .error ("value for schema key \"" ++ key ++ "\" must be a string")
  else if key = "required" then
    match value with
    | .seq typed => .ok (alSet schema key (.seq typed), desc)
    | _ => .error ("value for schema key \"" ++ key ++ "\" must be a YAML list")
  else if key = "params" then
    match cleanse value with
    | .error e => .error e
    | .ok cleansedParams =>
      match cleansedParams with
      | .mapS typed => .ok (alSet schema "properties" (.mapS typed), desc)
      | _ => .error "params failed to parse as a map"
  else
    match cleanse value with
    | .error e => .error e
    | .ok typed => .ok (alSet schema key typed, desc)

/-- The per-action key loop of `ReadActionsYaml`: folds `processEntry` over
the entries of one action's spec. -/
def processSpec : List (String × Val) → List (String × Val) → String →
    Except String (List (String × Val) × String)
  | [], schema, desc => .ok (schema, desc)
  | (key, value) :: rest, schema, desc =>
    match processEntry schema desc key value with
    | .error e => .error e
    | .ok (schema2, desc2) => processSpec rest schema2 desc2

/-- The body of `ReadActionsYaml`'s loop for a single `(name, actionSpec)`
entry (source part_000 lines 78-149): name gate, scaffold, key loop, then the
external self-check of the completed schema document (`schemaCheck` stands
for `gojsonschema.NewJsonSchemaDocument`; its failure is annotated with the
action name as `errors.Annotatef` renders it). -/
def buildAction (schemaCheck : Val → Except String Unit) (name : String)
    (actionSpec : List (String × Val)) : Except String ActionSpec :=
  if actionNameRule name then
    match processSpec actionSpec (initActionSchema name) "No description" with
    | .error e => .error e
    | .ok (thisActionSchema, desc) =>
      match schemaCheck (.mapS thisActionSchema) with
      | .error e =>
        .error ("invalid params schema for action schema " ++ name ++ ": " ++ e)
      | .ok _ => .ok ⟨desc, thisActionSchema⟩
  else .error ("bad action name " ++ name)

/-- The accumulator loop of `ReadActionsYaml` over the decoded top-level
document: each built spec is stored in the result map under its name. -/
def readActionsGo (schemaCheck : Val → Except String Unit) :
    List (String × List (String × Val)) → List (String × ActionSpec) →
    Except String (List (String × ActionSpec))
  | [], acc => .ok acc
  | (name, actionSpec) :: rest, acc =>
    match buildAction schemaCheck name actionSpec with
    | .error e => .error e
    | .ok spec => readActionsGo schemaCheck rest (alSet acc name spec)

/-- Embeds `ReadActionsYaml` (source part_000 lines 63-152) from the decoded
top-level document onward (reading the byte stream and YAML-unmarshaling it
into `map[string]map[string]interface{}` are external; the embedding starts
at the decoded document, one entry per named action).  The result is the
`ActionSpecs` map of the returned `Actions` value. -/
def ReadActionsYaml (schemaCheck : Val → Except String Unit)
    (doc : List (String × List (String × Val))) :
    Except String (List (String × ActionSpec)) :=
  readActionsGo schemaCheck doc []

/-- Modelled from the spec: the resource `Type` enumeration (Go type `Type`
in the resource package, declared outside the given sources).  Per the spec it
is "an enumerated tag (`file`, and an explicit `unknown` sentinel for
absent/invalid input)".  Named `ResType` because `Type` is reserved in
Lean. -/
inductive ResType where
  | unknown
  | file
  deriving DecidableEq

/-- Modelled from the spec: `ParseType` (declared outside the given sources)
maps the string `"file"` to the `file` tag and anything else to the `unknown`
sentinel, reporting success in the second component. -/
def ParseType (s : String) : ResType × Bool :=
  if s = "file" then (.file, true) else (.unknown, false)

/-- Modelled from the spec: `Type.Validate` (declared outside the given
sources) checks membership in the fixed permitted set, which contains exactly
`file`; `none` means valid. -/
def ResType.Validate : ResType → Option String
  | .file => none
  | .unknown => some "unsupported resource type"

/-- Modelled from the spec: the `%v` rendering of a `ResType` used in the
invalid-type message of `Meta.Validate`. -/
def ResType.render : ResType → String
  | .file => "file"
  | .unknown => ""

/-- Embeds `Meta` (source resource/meta.go lines 15-35).  The Go field `Type`
is `Rtype` here (`Type` is reserved in Lean). -/
structure Meta where
  Name : String
  Rtype : ResType
  Path : String
  Comment : String

/-- Reads a string field of the descriptor map the way `ParseMeta` does:
`if val := rMap[key]; val != nil { ... val.(string) ... }`.  The outer `none`
marks the path on which the Go type assertion `val.(string)` panics (a
present, non-nil, non-string value); `some none` means the field is absent or
nil and is skipped. -/
def metaField (rMap : List (String × Val)) (key : String) : Option (Option String) :=
  match alGet rMap key with
  | none => some none
  | some .null => some none
  | some (.str s) => some (some s)
  | some _ => none

/-- Embeds `ParseMeta` (source resource/meta.go lines 38-60).  `data` is the
generic descriptor value: Go `nil` is `none`.  The result is `none` exactly
where the Go code panics on a type assertion (`data` non-nil and not a
string-keyed map, or a present field value that is neither nil nor a
string). -/
def ParseMeta (name : String) (data : Option Val) : Option Meta :=
  match data with
  | none => some ⟨name, .unknown, "", ""⟩
  | some (.mapS rMap) =>
    match metaField rMap "type", metaField rMap "filename", metaField rMap "comment" with
    | some tval, some fval, some cval =>
      some { Name := name
             Rtype := match tval with
                      | some s => (ParseType s).1
                      | none => .unknown
             Path := fval.getD ""
             Comment := cval.getD "" }
    | _, _, _ => none
  | some _ => none

/-- Embeds `strings.Contains(s, needle)` for the single-character needle used
by `Meta.Validate`: substring containment of a one-character string is
character membership. -/
def containsChar (s : String) (c : Char) : Bool := s.data.contains c

/-- Embeds `Meta.Validate` (source resource/meta.go lines 63-89): the checks
run in the fixed source order and the first failure's `NotValid` message is
returned; `none` means the descriptor is valid. -/
def Meta.Validate (meta : Meta) : Option String :=
  if meta.Name = "" then some "resource missing name"
  else if meta.Rtype = ResType.unknown then some "resource missing type"
  else
    match meta.Rtype.Validate with
    | some err =>
      some ("invalid resource type " ++ meta.Rtype.render ++ ": " ++ err)
    | none =>
      if meta.Path = "" then some "resource missing filename"
      else if meta.Rtype = ResType.file && containsChar meta.Path '/' then
        some ("filename cannot contain \"/\" (got \"" ++ meta.Path ++ "\")")
      else none

theorem alGet_alSet_self {α : Type} (m : List (String × α)) (k : String) (v : α) :
    alGet (alSet m k v) k = some v := by
  induction m with
  | nil => simp [alGet, alSet]
  | cons kv rest ih =>
    obtain ⟨k1, v1⟩ := kv
    by_cases h : k1 = k <;> simp [alGet, alSet, h, ih]

theorem alGet_alSet_ne {α : Type} (m : List (String × α)) (k1 k2 : String) (v : α)
    (h : k1 ≠ k2) : alGet (alSet m k1 v) k2 = alGet m k2 := by
  induction m with
  | nil => simp [alGet, alSet, h]
  | cons kv rest ih =>
    obtain ⟨k0, v0⟩ := kv
    by_cases h0 : k0 = k1
    · subst h0
      simp [alGet, alSet, h]
    · by_cases h2 : k0 = k2 <;> simp [alGet, alSet, h0, h2, ih, Ne.symm h]

theorem alGet_alSet_cases {α : Type} (m : List (String × α)) (k1 k2 : String)
    (v : α) (w : α) (h : alGet (alSet m k1 v) k2 = some w) :
    (k2 = k1 ∧ w = v) ∨ alGet m k2 = some w := by
  by_cases hk : k2 = k1
  · subst hk
    rw [alGet_alSet_self] at h
    exact Or.inl ⟨rfl, (Option.some_inj.mp h).symm⟩
  · rw [alGet_alSet_ne m k1 k2 v (fun he => hk he.symm)] at h
    exact Or.inr h

/-- Claim C6: `Meta.Validate` performs its checks in the fixed order
name, type (non-unknown then recognized), path, and (for file resources)
path-separator freedom, returning the first failing check's message and
`none` when all pass; the three spec examples behave as stated. -/
theorem C6_meta_validate_order :
    Meta.Validate ⟨"", .file, "x", ""⟩ = some "resource missing name"
    ∧ Meta.Validate ⟨"eggs", .file, "a/b", ""⟩ =
        some "filename cannot contain \"/\" (got \"a/b\")"
    ∧ Meta.Validate ⟨"eggs", .file, "eggs.tgz", ""⟩ = none
    ∧ (∀ meta : Meta, meta.Validate = none ↔
        (meta.Name ≠ "" ∧ meta.Rtype ≠ .unknown ∧ meta.Rtype.Validate = none
          ∧ meta.Path ≠ "" ∧ (meta.Rtype = .file → containsChar meta.Path '/' = false)))
    ∧ (∀ meta : Meta, meta.Name = "" → meta.Validate = some "resource missing name")
    ∧ (∀ meta : Meta, meta.Name ≠ "" → meta.Rtype = .unknown →
        meta.Validate = some "resource missing type")
    ∧ (∀ meta : Meta, meta.Name ≠ "" → meta.Rtype ≠ .unknown →
        meta.Rtype.Validate = none → meta.Path = "" →
        meta.Validate = some "resource missing filename")
    ∧ (∀ meta : Meta, meta.Name ≠ "" → meta.Rtype = .file → meta.Path ≠ "" →
        containsChar meta.Path '/' = true →
        meta.Validate = some ("filename cannot contain \"/\" (got \"" ++ meta.Path ++ "\")")) := by
  refine ⟨by decide, by decide, by decide, ?_, ?_, ?_, ?_, ?_⟩
  · rintro ⟨n, t, p, c⟩
    cases t <;> simp [Meta.Validate, ResType.Validate] <;> split_ifs <;> simp_all
  · rintro ⟨n, t, p, c⟩ h
    simp at h
    subst h
    simp [Meta.Validate]
  · rintro ⟨n, t, p, c⟩ h1 h2
    simp at h2
    subst h2
    simp [Meta.Validate, h1]
  · rintro ⟨n, t, p, c⟩ h1 h2 h3 h4
    cases t
    · simp at h2
    · simp at h4
      subst h4
      simp [Meta.Validate, h1, ResType.Validate]
  · rintro ⟨n, t, p, c⟩ h1 h2 h3 h4
    simp at h2
    subst h2
    simp [Meta.Validate, h1, h3, h4, ResType.Validate]

/-- Witness for C6 at a concrete descriptor with every hypothesis
discharged. -/
theorem C6_witness :
    Meta.Validate ⟨"", .file, "x", ""⟩ = some "resource missing name" :=
  (C6_meta_validate_order.2.2.2.2.1) ⟨"", .file, "x", ""⟩ rfl

/-- Claim C9: `ParseMeta` with nil data yields a descriptor with only the
name populated; with a string-keyed mapping, absent `type`/`filename`/
`comment` keys leave the zero values, present string values are copied into
the corresponding field, and a `type` string that fails to parse leaves the
type unknown. -/
theorem C9_parse_meta :
    (∀ name, ParseMeta name none = some ⟨name, .unknown, "", ""⟩)
    ∧ (∀ name rMap meta, ParseMeta name (some (.mapS rMap)) = some meta →
        meta.Name = name
        ∧ (alGet rMap "type" = none → meta.Rtype = .unknown)
        ∧ (alGet rMap "filename" = none → meta.Path = "")
        ∧ (alGet rMap "comment" = none → meta.Comment = "")
        ∧ (∀ s, alGet rMap "type" = some (.str s) → meta.Rtype = (ParseType s).1)
        ∧ (∀ s, alGet rMap "type" = some (.str s) → (ParseType s).2 = false →
            meta.Rtype = .unknown)
        ∧ (∀ s, alGet rMap "filename" = some (.str s) → meta.Path = s)
        ∧ (∀ s, alGet rMap "comment" = some (.str s) → meta.Comment = s)) := by
  constructor
  · intro name
    rfl
  · intro name rMap meta h
    simp only [ParseMeta] at h
    cases ht : metaField rMap "type" with
    | none => rw [ht] at h; simp at h
    | some tval =>
      rw [ht] at h
      cases hf : metaField rMap "filename" with
      | none => rw [hf] at h; simp at h
      | some fval =>
        rw [hf] at h
        cases hc : metaField rMap "comment" with
        | none => rw [hc] at h; simp at h
        | some cval =>
          rw [hc] at h
          simp only [] at h
          injection h with h2
          subst h2
          refine ⟨rfl, ?_, ?_, ?_, ?_, ?_, ?_, ?_⟩
          · intro hget
            simp [metaField, hget] at ht
            subst ht
            rfl
          · intro hget
            simp [metaField, hget] at hf
            subst hf
            rfl
          · intro hget
            simp [metaField, hget] at hc
            subst hc
            rfl
          · intro s hget
            simp [metaField, hget] at ht
            subst ht
            rfl
          · intro s hget hpt
            simp [metaField, hget] at ht
            subst ht
            by_cases hs : s = "file"
            · simp [ParseType, hs] at hpt
            · simp [ParseType, hs]
          · intro s hget
            simp [metaField, hget] at hf
            subst hf
            rfl
          · intro s hget
            simp [metaField, hget] at hc
            subst hc
            rfl

/-- Witness for C9 at a concrete name and descriptor map with every
hypothesis discharged. -/
theorem C9_witness :
    ParseMeta "eggs" none = some ⟨"eggs", .unknown, "", ""⟩
    ∧ (ParseMeta "eggs" (some (.mapS [("filename", .str "eggs.tgz")]))).map Meta.Path
        = some "eggs.tgz" := by
  refine ⟨C9_parse_meta.1 "eggs", ?_⟩
  have h := (C9_parse_meta.2 "eggs" [("filename", .str "eggs.tgz")]
    ⟨"eggs", .unknown, "eggs.tgz", ""⟩ rfl).2.2.2.2.2.2.1 "eggs.tgz" rfl
  simp only [Option.map]
  exact congrArg some h

/-- Whether a tree node is a Go string (the shape accepted by the
`key.(string)` assertions). -/
def isStrVal : Val → Bool
  | .str _ => true
  | _ => false

theorem coerceEntries_error_of_nonstr (m : List (Val × Val)) (kv : Val × Val)
    (hmem : kv ∈ m) (hns : isStrVal kv.1 = false) :
    ∃ e, coerceEntries m = .error e := by
  induction m with
  | nil => simp at hmem
  | cons hd rest ih =>
    obtain ⟨k, v⟩ := hd
    rcases List.mem_cons.mp hmem with heq | htl
    · subst heq
      cases k <;> simp [isStrVal] at hns <;> simp [coerceEntries]
    · obtain ⟨e, he⟩ := ih htl
      cases k <;> simp [coerceEntries, he, Except.map]

/-- Claim C5: `recurseMapOnKeys` on a single remaining key returns the map's
value and presence flag regardless of the value's shape; with more keys
remaining it returns `(nil, false)` when the key is absent, when the value is
not a mapping, or when an interface-keyed intermediate map has any non-string
key; and the three spec examples evaluate as stated. -/
theorem C5_recurse_map_on_keys :
    (∀ key params, recurseMapOnKeys [key] params
        = (alGet params key, (alGet params key).isSome))
    ∧ (∀ key k2 rest params, alGet params key = none →
        recurseMapOnKeys (key :: k2 :: rest) params = (none, false))
    ∧ (∀ key k2 rest params v, alGet params key = some v →
        (∀ m, v ≠ .mapS m) → (∀ m, v ≠ .mapI m) →
        recurseMapOnKeys (key :: k2 :: rest) params = (none, false))
    ∧ (∀ key k2 rest params m kv, alGet params key = some (.mapI m) →
        kv ∈ m → isStrVal kv.1 = false →
        recurseMapOnKeys (key :: k2 :: rest) params = (none, false))
    ∧ recurseMapOnKeys ["a", "b"] [("a", .mapS [("b", .mapS [("c", .str "d")])])]
        = (some (.mapS [("c", .str "d")]), true)
    ∧ recurseMapOnKeys ["a", "x"] [("a", .mapS [("b", .num 1)])] = (none, false)
    ∧ recurseMapOnKeys ["a", "b"] [("a", .num 5)] = (none, false) := by
  refine ⟨?_, ?_, ?_, ?_, rfl, rfl, rfl⟩
  · intro key params
    rfl
  · intro key k2 rest params h
    simp [recurseMapOnKeys, h]
  · intro key k2 rest params v hget h1 h2
    cases v with
    | mapS m => exact absurd rfl (h1 m)
    | mapI m => exact absurd rfl (h2 m)
    | str s => simp [recurseMapOnKeys, hget]
    | num n => simp [recurseMapOnKeys, hget]
    | bool b => simp [recurseMapOnKeys, hget]
    | null => simp [recurseMapOnKeys, hget]
    | seq xs => simp [recurseMapOnKeys, hget]
  · intro key k2 rest params m kv hget hmem hns
    obtain ⟨e, he⟩ := coerceEntries_error_of_nonstr m kv hmem hns
    simp [recurseMapOnKeys, hget, he]

/-- Witness for C5: the hypothesis-bearing conjuncts applied at concrete
inputs. -/
theorem C5_witness :
    recurseMapOnKeys ["a", "x", "y"] [("b", .str "c")] = (none, false)
    ∧ recurseMapOnKeys ["a", "b"] [("a", .mapI [(.num 1, .str "x")])] = (none, false) := by
  constructor
  · exact C5_recurse_map_on_keys.2.1 "a" "x" ["y"] [("b", .str "c")] rfl
  · exact C5_recurse_map_on_keys.2.2.2.1 "a" "b" [] [("a", .mapI [(.num 1, .str "x")])]
      [(.num 1, .str "x")] (.num 1, .str "x") rfl (by simp) rfl

/-- Claim C4: `ValidateParams` returns `(true, nil)` exactly when the
instance satisfies the schema; on failure it returns `(false, err)` where the
error text is the fixed prefix followed by every individual validation error
message, in order, joined by `"; "`; a schema-compilation failure is
propagated unchanged; and `(true, non-nil-error)` is impossible.  Stated for
every behavior of the external validation engine. -/
theorem C4_validate_params (validator : List (String × Val) → Except String (Val → ValidationResult))
    (spec : ActionSpec) (params : Val) :
    (∀ e, validator spec.Params = .error e →
      spec.ValidateParams validator params = (false, some e))
    ∧ (∀ doc, validator spec.Params = .ok doc →
        ((doc params).valid = true →
          spec.ValidateParams validator params = (true, none))
        ∧ ((doc params).valid = false →
          spec.ValidateParams validator params =
            (false, some ("JSON validation failed: "
              ++ String.intercalate "; " (doc params).errors))))
    ∧ ¬((spec.ValidateParams validator params).1 = true
        ∧ (spec.ValidateParams validator params).2 ≠ none) := by
  refine ⟨?_, ?_, ?_⟩
  · intro e he
    simp [ActionSpec.ValidateParams, he]
  · intro doc hdoc
    constructor
    · intro hv
      simp [ActionSpec.ValidateParams, hdoc, hv]
    · intro hv
      simp [ActionSpec.ValidateParams, hdoc, hv]
  · rintro ⟨h1, h2⟩
    unfold ActionSpec.ValidateParams at h1 h2
    cases hv : validator spec.Params with
    | error e => simp [hv] at h1
    | ok doc =>
      simp [hv] at h1 h2
      by_cases hval : (doc params).valid <;> simp [hval] at h1 h2

/-- Witness for C4 at a concrete engine, spec and instance. -/
theorem C4_witness :
    (ActionSpec.mk "d" []).ValidateParams
      (fun _ => .ok (fun _ => ⟨false, ["bad type", "too long"]⟩)) .null
      = (false, some "JSON validation failed: bad type; too long") :=
  ((C4_validate_params (fun _ => .ok (fun _ => ⟨false, ["bad type", "too long"]⟩))
    (ActionSpec.mk "d" []) .null).2.1 (fun _ => ⟨false, ["bad type", "too long"]⟩) rfl).2 rfl

/-- Claim C7: the action-name gate of `ReadActionsYaml` accepts exactly the
names matching `^[a-z](?:[a-z-]*[a-z])?$`: a non-matching name fails the
build with the bad-action-name error (whatever the rest of the document and
the external engine do), a matching name passes the gate, and the five spec
examples evaluate as stated. -/
theorem C7_action_name_gate :
    (∀ check name actionSpec, actionNameRule name = false →
      buildAction check name actionSpec = .error ("bad action name " ++ name))
    ∧ (∀ check name actionSpec rest, actionNameRule name = false →
      ReadActionsYaml check ((name, actionSpec) :: rest)
        = .error ("bad action name " ++ name))
    ∧ (∀ check name, actionNameRule name = true →
      check (.mapS (initActionSchema name)) = .ok () →
      buildAction check name [] = .ok ⟨"No description", initActionSchema name⟩)
    ∧ actionNameRule "snapshot" = true
    ∧ actionNameRule "Snapshot" = false
    ∧ actionNameRule "-snap" = false
    ∧ actionNameRule "snap-" = false
    ∧ actionNameRule "" = false := by
  refine ⟨?_, ?_, ?_, by decide, by decide, by decide, by decide, by decide⟩
  · intro check name actionSpec h
    simp [buildAction, h]
  · intro check name actionSpec rest h
    simp [ReadActionsYaml, readActionsGo, buildAction, h]
  · intro check name h hcheck
    simp [buildAction, h, processSpec, hcheck]

/-- Witness for C7: the gate conjuncts applied at concrete names, specs and a
concrete engine. -/
theorem C7_witness :
    buildAction (fun _ => .ok ()) "Snapshot" [] = .error "bad action name Snapshot"
    ∧ buildAction (fun _ => .ok ()) "snapshot" []
        = .ok ⟨"No description", initActionSchema "snapshot"⟩ := by
  constructor
  · exact C7_action_name_gate.1 (fun _ => .ok ()) "Snapshot" [] (by decide)
  · exact C7_action_name_gate.2.2.1 (fun _ => .ok ()) "snapshot" (by decide) rfl

/-- Claim C1 (evidence): a reserved key nested directly under a string-keyed
map or reached through key coercion is reported with the reserved-key error,
but a reserved key nested inside a sequence element is reported with the
non-string-key error text: the sequence case of `cleanse` discards the
recursive error and builds a fresh "map keyed with non-string value" error,
so the claim's "the error is the reserved-key error" fails there. -/
theorem C1_reserved_key_error_swallowed_in_sequences :
    cleanse (.mapS [("a", .seq [.mapS [("$ref", .str "x")]])])
      = .error "map keyed with non-string value"
    ∧ cleanse (.mapS [("$ref", .str "x")])
      = .error "schema key \"$ref\" not compatible with this version of juju"
    ∧ cleanse (.mapI [(.str "$schema", .str "x")])
      = .error "schema key \"$schema\" not compatible with this version of juju"
    ∧ "map keyed with non-string value"
      ≠ "schema key \"$ref\" not compatible with this version of juju" := by
  refine ⟨?_, ?_, ?_, by decide⟩
  · simp [cleanse, cleanseS, cleanseL, prohibitedSchemaKeys, Except.map]
  · simp [cleanse, cleanseS, prohibitedSchemaKeys, Except.map]
  · simp [cleanse, cleanseS, coerceEntries, prohibitedSchemaKeys, Except.map]

/-- Claim C2: for the action document
`{snapshot: {description: "take snapshot", params: {outfile: {type: "string"}}}}`
the build succeeds (for any external engine accepting the built document) and
the resulting spec for "snapshot" has exactly the four schema entries
`description = "take snapshot"`, `type = "object"`, `title = "snapshot"` and
`properties = {outfile: {type: "string"}}`; and for every action the scaffold
`{description: "No description", type: "object", title: name, properties: {}}`
is what the key loop starts from, as exhibited by the empty spec. -/
theorem C2_snapshot_build :
    (∀ check,
      check (.mapS [("description", .str "take snapshot"),
                    ("type", .str "object"),
                    ("title", .str "snapshot"),
                    ("properties", .mapS [("outfile", .mapS [("type", .str "string")])])])
        = .ok () →
      ReadActionsYaml check
        [("snapshot", [("description", .str "take snapshot"),
                       ("params", .mapS [("outfile", .mapS [("type", .str "string")])])])]
        = .ok [("snapshot",
            ⟨"take snapshot",
             [("description", .str "take snapshot"),
              ("type", .str "object"),
              ("title", .str "snapshot"),
              ("properties", .mapS [("outfile", .mapS [("type", .str "string")])])]⟩)])
    ∧ (∀ check name, actionNameRule name = true →
        check (.mapS (initActionSchema name)) = .ok () →
        buildAction check name [] = .ok ⟨"No description", initActionSchema name⟩) := by
  constructor
  · intro check hcheck
    have hname : actionNameRule "snapshot" = true := by decide
    simp [ReadActionsYaml, readActionsGo, buildAction, hname, processSpec, processEntry,
      initActionSchema, alSet, alGet, cleanse, cleanseS, prohibitedSchemaKeys, Except.map,
      hcheck]
  · intro check name h hcheck
    simp [buildAction, h, processSpec, hcheck]

/-- Witness for C2 with a concrete accepting engine. -/
theorem C2_witness :
    ReadActionsYaml (fun _ => .ok ())
      [("snapshot", [("description", .str "take snapshot"),
                     ("params", .mapS [("outfile", .mapS [("type", .str "string")])])])]
      = .ok [("snapshot",
          ⟨"take snapshot",
           [("description", .str "take snapshot"),
            ("type", .str "object"),
            ("title", .str "snapshot"),
            ("properties", .mapS [("outfile", .mapS [("type", .str "string")])])]⟩)] :=
  C2_snapshot_build.1 (fun _ => .ok ()) rfl

/-- Claim C8: per-key shape enforcement inside an action's spec: non-string
`description`/`title` and non-sequence `required` values fail with the
wrong-type error; `required` is stored verbatim without canonicalization;
`params` is canonicalized with failure propagated and its canonical form must
be a string-keyed mapping; every unrecognized key is canonicalized (failure
propagated) and stored under the same key; and a failing entry fails the
whole build. -/
theorem C8_per_key_shapes :
    (∀ schema desc value, (∀ s, value ≠ .str s) →
      processEntry schema desc "description" value
        = .error "value for schema key \"description\" must be a string")
    ∧ (∀ schema desc value, (∀ s, value ≠ .str s) →
      processEntry schema desc "title" value
        = .error "value for schema key \"title\" must be a string")
    ∧ (∀ schema desc value, (∀ xs, value ≠ .seq xs) →
      processEntry schema desc "required" value
        = .error "value for schema key \"required\" must be a YAML list")
    ∧ (∀ schema desc xs,
      processEntry schema desc "required" (.seq xs)
        = .ok (alSet schema "required" (.seq xs), desc))
    ∧ (∀ schema desc value e, cleanse value = .error e →
      processEntry schema desc "params" value = .error e)
    ∧ (∀ schema desc value w, cleanse value = .ok w → (∀ m, w ≠ .mapS m) →
      processEntry schema desc "params" value = .error "params failed to parse as a map")
    ∧ (∀ schema desc value m, cleanse value = .ok (.mapS m) →
      processEntry schema desc "params" value
        = .ok (alSet schema "properties" (.mapS m), desc))
    ∧ (∀ schema desc key value e,
      key ≠ "description" → key ≠ "title" → key ≠ "required" → key ≠ "params" →
      cleanse value = .error e → processEntry schema desc key value = .error e)
    ∧ (∀ schema desc key value w,
      key ≠ "description" → key ≠ "title" → key ≠ "required" → key ≠ "params" →
      cleanse value = .ok w →
      processEntry schema desc key value = .ok (alSet schema key w, desc))
    ∧ (∀ rest schema desc key value e, processEntry schema desc key value = .error e →
      processSpec ((key, value) :: rest) schema desc = .error e)
    ∧ (∀ check name actionSpec e, actionNameRule name = true →
      processSpec actionSpec (initActionSchema name) "No description" = .error e →
      buildAction check name actionSpec = .error e)
    ∧ (∀ check name actionSpec rest e, buildAction check name actionSpec = .error e →
      ReadActionsYaml check ((name, actionSpec) :: rest) = .error e) := by
  refine ⟨?_, ?_, ?_, ?_, ?_, ?_, ?_, ?_, ?_, ?_, ?_, ?_⟩
  · intro schema desc value hv
    cases value with
    | str s => exact absurd rfl (hv s)
    | _ => simp [processEntry]
  · intro schema desc value hv
    cases value with
    | str s => exact absurd rfl (hv s)
    | _ => simp [processEntry]
  · intro schema desc value hv
    cases value with
    | seq xs => exact absurd rfl (hv xs)
    | _ => simp [processEntry]
  · intro schema desc xs
    simp [processEntry]
  · intro schema desc value e he
    simp [processEntry, he]
  · intro schema desc value w hw hns
    cases w with
    | mapS m => exact absurd rfl (hns m)
    | _ => simp [processEntry, hw]
  · intro schema desc value m hm
    simp [processEntry, hm]
  · intro schema desc key value e h1 h2 h3 h4 he
    simp [processEntry, h1, h2, h3, h4, he]
  · intro schema desc key value w h1 h2 h3 h4 hw
    simp [processEntry, h1, h2, h3, h4, hw]
  · intro rest schema desc key value e he
    simp [processSpec, he]
  · intro check name actionSpec e hname he
    simp [buildAction, hname, he]
  · intro check name actionSpec rest e he
    simp [ReadActionsYaml, readActionsGo, he]

/-- Witness for C8: the hypothesis-bearing conjuncts applied at concrete
inputs. -/
theorem C8_witness :
    processEntry (initActionSchema "a") "No description" "description" (.num 3)
      = .error "value for schema key \"description\" must be a string"
    ∧ processEntry (initActionSchema "a") "No description" "extra" (.mapI [(.num 1, .null)])
      = .error "map keyed with non-string value"
    ∧ processEntry (initActionSchema "a") "No description" "params" (.num 3)
      = .error "params failed to parse as a map" := by
  refine ⟨?_, ?_, ?_⟩
  · exact C8_per_key_shapes.1 (initActionSchema "a") "No description" (.num 3)
      (fun s h => by cases h)
  · exact C8_per_key_shapes.2.2.2.2.2.2.2.1 (initActionSchema "a") "No description"
      "extra" (.mapI [(.num 1, .null)]) "map keyed with non-string value"
      (by decide) (by decide) (by decide) (by decide)
      (by simp [cleanse, coerceEntries])
  · exact C8_per_key_shapes.2.2.2.2.2.1 (initActionSchema "a") "No description"
      (.num 3) (.num 3) (by simp [cleanse]) (fun m h => by cases h)

theorem processEntry_desc_inv (schema : List (String × Val)) (desc key : String)
    (value : Val) (schema2 : List (String × Val)) (desc2 : String)
    (h : processEntry schema desc key value = .ok (schema2, desc2))
    (hinv : alGet schema "description" = some (.str desc)) :
    alGet schema2 "description" = some (.str desc2) := by
  unfold processEntry at h
  by_cases h1 : key = "description"
  · subst h1
    simp only [if_pos rfl] at h
    cases value <;> simp at h
    obtain ⟨rfl, rfl⟩ := h
    exact alGet_alSet_self schema "description" _
  · rw [if_neg h1] at h
    by_cases h2 : key = "title"
    · subst h2
      simp only [if_pos rfl] at h
      cases value <;> simp at h
      obtain ⟨rfl, rfl⟩ := h
      rw [alGet_alSet_ne schema "title" "description" _ (by decide)]
      exact hinv
    · rw [if_neg h2] at h
      by_cases h3 : key = "required"
      · subst h3
        simp only [if_pos rfl] at h
        cases value <;> simp at h
        obtain ⟨rfl, rfl⟩ := h
        rw [alGet_alSet_ne schema "required" "description" _ (by decide)]
        exact hinv
      · rw [if_neg h3] at h
        by_cases h4 : key = "params"
        · subst h4
          simp only [if_pos rfl] at h
          cases hcl : cleanse value with
          | error e => rw [hcl] at h; simp at h
          | ok w =>
            rw [hcl] at h
            cases w <;> simp at h
            obtain ⟨rfl, rfl⟩ := h
            rw [alGet_alSet_ne schema "properties" "description" _ (by decide)]
            exact hinv
        · rw [if_neg h4] at h
          cases hcl : cleanse value with
          | error e => rw [hcl] at h; simp at h
          | ok w =>
            rw [hcl] at h
            simp at h
            obtain ⟨rfl, rfl⟩ := h
            rw [alGet_alSet_ne schema key "description" w h1]
            exact hinv

theorem processSpec_desc_inv (entries : List (String × Val)) :
    ∀ schema desc schema2 desc2,
    processSpec entries schema desc = .ok (schema2, desc2) →
    alGet schema "description" = some (.str desc) →
    alGet schema2 "description" = some (.str desc2) := by
  induction entries with
  | nil =>
    intro schema desc schema2 desc2 h hinv
    simp [processSpec] at h
    obtain ⟨rfl, rfl⟩ := h
    exact hinv
  | cons kv rest ih =>
    intro schema desc schema2 desc2 h hinv
    obtain ⟨key, value⟩ := kv
    simp only [processSpec] at h
    cases hpe : processEntry schema desc key value with
    | error e => rw [hpe] at h; simp at h
    | ok st =>
      obtain ⟨s2, d2⟩ := st
      rw [hpe] at h
      exact ih s2 d2 schema2 desc2 h (processEntry_desc_inv schema desc key value s2 d2 hpe hinv)

theorem buildAction_desc_inv (check : Val → Except String Unit) (name : String)
    (actionSpec : List (String × Val)) (a : ActionSpec)
    (h : buildAction check name actionSpec = .ok a) :
    alGet a.Params "description" = some (.str a.Description) := by
  unfold buildAction at h
  by_cases hname : actionNameRule name = true
  · simp only [hname, if_true] at h
    cases hps : processSpec actionSpec (initActionSchema name) "No description" with
    | error e => rw [hps] at h; simp at h
    | ok st =>
      obtain ⟨schema, desc⟩ := st
      rw [hps] at h
      simp only [] at h
      cases hck : check (.mapS schema) with
      | error e => simp [hck] at h
      | ok u =>
        simp [hck] at h
        subst h
        exact processSpec_desc_inv actionSpec (initActionSchema name) "No description"
          schema desc hps rfl
  · simp [hname] at h

theorem readActionsGo_desc_inv (check : Val → Except String Unit)
    (doc : List (String × List (String × Val))) :
    ∀ acc acts,
    (∀ n a, alGet acc n = some a → alGet a.Params "description" = some (.str a.Description)) →
    readActionsGo check doc acc = .ok acts →
    ∀ n a, alGet acts n = some a → alGet a.Params "description" = some (.str a.Description) := by
  induction doc with
  | nil =>
    intro acc acts hacc h
    simp [readActionsGo] at h
    subst h
    exact hacc
  | cons entry rest ih =>
    intro acc acts hacc h
    obtain ⟨aname, aspec⟩ := entry
    simp only [readActionsGo] at h
    cases hb : buildAction check aname aspec with
    | error e => rw [hb] at h; simp at h
    | ok built =>
      rw [hb] at h
      refine ih (alSet acc aname built) acts ?_ h
      intro n a hget
      rcases alGet_alSet_cases acc aname n built a hget with ⟨rfl, rfl⟩ | hold
      · exact buildAction_desc_inv check _ aspec _ hb
      · exact hacc n a hold

/-- Claim C10: in every successfully built actions collection, each action's
`Description` field equals the value stored under the `"description"` key of
its own `Params` schema document. -/
theorem C10_description_invariant (check : Val → Except String Unit)
    (doc : List (String × List (String × Val)))
    (acts : List (String × ActionSpec)) (name : String) (a : ActionSpec)
    (h : ReadActionsYaml check doc = .ok acts) (hget : alGet acts name = some a) :
    alGet a.Params "description" = some (.str a.Description) :=
  readActionsGo_desc_inv check doc [] acts (fun n a0 h0 => by simp [alGet] at h0) h name a hget

/-- Witness for C10 at a concrete document. -/
theorem C10_witness :
    alGet (ActionSpec.mk "No description" (initActionSchema "a")).Params "description"
      = some (.str "No description") :=
  C10_description_invariant (fun _ => .ok ()) [("a", [])]
    [("a", ⟨"No description", initActionSchema "a"⟩)] "a"
    ⟨"No description", initActionSchema "a"⟩ rfl rfl

theorem cleanse_ok_of_good :
    (∀ v, goodVal v = true → cleanse v = .ok v)
    ∧ (∀ xs, goodL xs = true → cleanseL xs = .ok xs)
    ∧ (∀ m, goodS m = true → cleanseS m = .ok m) := by
  refine cleanse.mutual_induct
    (fun v => goodVal v = true → cleanse v = .ok v)
    (fun xs => goodL xs = true → cleanseL xs = .ok xs)
    (fun m => goodS m = true → cleanseS m = .ok m)
    ?_ ?_ ?_ ?_ ?_ ?_ ?_ ?_ ?_ ?_ ?_ ?_
  · intro m ihm hg
    simp only [goodVal] at hg
    simp [cleanse, ihm hg, Except.map]
  · intro m e he hg
    simp [goodVal] at hg
  · intro m m2 hco ih hg
    simp [goodVal] at hg
  · intro xs ihxs hg
    simp only [goodVal] at hg
    simp [cleanse, ihxs hg, Except.map]
  · intro v h1 h2 h3 hg
    cases v with
    | mapS m => exact absurd rfl (h1 m)
    | mapI m => exact absurd rfl (h2 m)
    | seq xs => exact absurd rfl (h3 xs)
    | str s => simp [cleanse]
    | num n => simp [cleanse]
    | bool b => simp [cleanse]
    | null => simp [cleanse]
  · intro _
    simp [cleanseL]
  · intro v vs e hce ihv hg
    simp only [goodL, Bool.and_eq_true] at hg
    rw [ihv hg.1] at hce
    cases hce
  · intro v vs newValue hcv ihv ihvs hg
    simp only [goodL, Bool.and_eq_true] at hg
    have h1 := ihv hg.1
    rw [h1] at hcv
    injection hcv with h2
    subst h2
    simp [cleanseL, h1, ihvs hg.2, Except.map]
  · intro _
    simp [cleanseS]
  · intro k v m hk hg
    simp only [goodS, Bool.and_eq_true] at hg
    have hmem : k ∈ prohibitedSchemaKeys := by simpa using hk
    simp [hmem] at hg
  · intro k v m hk e hce ihv hg
    simp only [goodS, Bool.and_eq_true] at hg
    rw [ihv hg.1.2] at hce
    cases hce
  · intro k v m hk newValue hcv ihv ihm hg
    simp only [goodS, Bool.and_eq_true] at hg
    have h1 := ihv hg.1.2
    rw [h1] at hcv
    injection hcv with h2
    subst h2
    have hnk : k ∉ prohibitedSchemaKeys := by simpa using hk
    simp [cleanseS, hnk, h1, ihm hg.2, Except.map]

/-- Claim C3: on every tree all of whose mappings, at every depth, are
string-keyed and contain no reserved key, `cleanse` succeeds and returns the
input tree unchanged. -/
theorem C3_cleanse_identity_on_good (v : Val) (h : goodVal v = true) :
    cleanse v = .ok v :=
  cleanse_ok_of_good.1 v h

/-- Witness for C3 at a concrete nested tree. -/
theorem C3_witness :
    goodVal (.mapS [("a", .seq [.str "b", .mapS [("c", .num 1)]])]) = true
    ∧ cleanse (.mapS [("a", .seq [.str "b", .mapS [("c", .num 1)]])])
      = .ok (.mapS [("a", .seq [.str "b", .mapS [("c", .num 1)]])]) := by
  have hg : goodVal (.mapS [("a", .seq [.str "b", .mapS [("c", .num 1)]])]) = true := by
    simp [goodVal, goodS, goodL, prohibitedSchemaKeys]
  exact ⟨hg, C3_cleanse_identity_on_good _ hg⟩
